import Mathlib

/-!
Shallow embedding of the WordStress notebooks
(`src/WordStress/.ipynb_checkpoints/Test-checkpoint.ipynb`, the bidirectional
LSTM variant, and `Test-Copy1-checkpoint.ipynb`, the unidirectional variant).

Pure Python functions are translated into Lean functions; float logit values
are modelled as rationals; the tensor library's pointwise `exp` and `log` are
abstract parameters `E` / `Lg` of the loss; tensor operations that can raise
(`F.cross_entropy` with an out-of-range, non-ignored target, `torch.argmax` on an empty
tensor, Python `max` on an empty list, `load_state_dict` on mismatching
shapes) are modelled in `Except Unit`.
-/

deriving instance DecidableEq for Except

namespace WordStress

/-- Embedding of `build_vocab(words)` from the notebooks: collect the set of distinct
characters across all input words, sort it (Python `sorted` on one-character
strings is codepoint order), assign index `idx + 1` to the `idx`-th sorted
character, and add the reserved entry `'<PAD>' ↦ 0`.  The Python dict is
modelled as an association list; its keys (one-character strings and the
five-character string `"<PAD>"`) are pairwise distinct, so no entry is
overwritten. -/
def sortedChars (words : List String) : List Char :=
  List.insertionSort (fun a b => a ≤ b) ((words.flatMap String.toList).dedup)

def build_vocab (words : List String) : List (String × ℕ) :=
  ((sortedChars words).enum.map (fun p => (p.2.toString, p.1 + 1))) ++ [("<PAD>", 0)]

/-- Python `d.get(key)` / `d[key]` on the association-list model of a dict
whose keys are pairwise distinct: the first matching entry's value. -/
def dictGet (d : List (String × ℕ)) (key : String) : Option ℕ :=
  (d.find? (fun p => p.1 == key)).map (fun p => p.2)

/-- Embedding of `encode_word(word, char2idx)` from the notebooks:
`[char2idx.get(ch, 0) for ch in word]` — one index per character, with the
silent fallback `0` for characters absent from the mapping. -/
def encode_word (word : String) (char2idx : List (String × ℕ)) : List ℕ :=
  word.toList.map (fun ch => (dictGet char2idx ch.toString).getD 0)

/-- A float loss value as Python produces it: either an ordinary number
(modelled as a rational) or NaN — the value `F.cross_entropy` returns when
every target of the call is the ignore index, since the mean over zero
non-ignored targets is `0/0`. -/
inductive PyFloat where
  | nan : PyFloat
  | val : ℚ → PyFloat
deriving DecidableEq

/-- Python float addition: NaN propagates through `+`. -/
def PyFloat.add : PyFloat → PyFloat → PyFloat
  | .val a, .val b => .val (a + b)
  | _, _ => .nan

/-- Python float division by a (nonzero) integer: NaN propagates. -/
def PyFloat.divNat : PyFloat → ℕ → PyFloat
  | .val a, n => .val (a / n)
  | .nan, _ => .nan

/-- Embedding of `F.cross_entropy(logit_i.unsqueeze(0), [target])` on one
example whose restricted row is `l`.  With the call's default
`ignore_index = -100`, a target of exactly `-100` raises nothing: the example
is ignored and the mean over zero non-ignored targets is NaN.  Any other
target outside `[0, l.length)` raises an index error.  An in-range target
gives `log (Σ_j exp l_j) - l_t`, the categorical cross-entropy of a single
row.  The tensor library's pointwise `exp` and `log` are the abstract
parameters `E` and `Lg`. -/
def cross_entropy (E Lg : ℚ → ℚ) (l : List ℚ) (t : ℤ) : Except Unit PyFloat :=
  if t = -100 then .ok .nan
  else if 0 ≤ t ∧ t < (l.length : ℤ) then
    .ok (.val (Lg ((l.map E).sum) - l.getD t.toNat 0))
  else .error ()

/-- The accumulation loop of `masked_cross_entropy_loss`: example `i`
contributes the cross-entropy of `logits[i, :num_syllables[i]]` against the
0-indexed target `stresses[i] - 1`; a failing example aborts the batch,
while a NaN per-example loss (ignored target) contaminates the sum silently.
Batch elements are `(logit row, stress label, syllable count)`. -/
def lossSum (E Lg : ℚ → ℚ) : List (List ℚ × ℤ × ℕ) → Except Unit PyFloat
  | [] => .ok (.val 0)
  | b :: rest =>
    match cross_entropy E Lg (b.1.take b.2.2) (b.2.1 - 1), lossSum E Lg rest with
    | .ok x, .ok s => .ok (x.add s)
    | _, _ => .error ()

/-- Embedding of `masked_cross_entropy_loss(logits, stresses, num_syllables)` from the
notebooks: the summed per-example masked losses divided by the batch size
(`batch_loss / batch_size`; Python division raises on an empty batch;
a NaN sum divides to a NaN mean without raising). -/
def masked_cross_entropy_loss (E Lg : ℚ → ℚ) (batch : List (List ℚ × ℤ × ℕ)) :
    Except Unit PyFloat :=
  if batch.length = 0 then .error () else
    match lossSum E Lg batch with
    | .ok s => .ok (s.divNat batch.length)
    | .error e => .error e

/-- Embedding of `torch.argmax` on a 1-D tensor: the index of the first maximal value
(the documented tie-breaking); raises on an empty tensor. -/
def torch_argmax : List ℚ → Option ℕ
  | [] => none
  | x :: xs =>
    match torch_argmax xs with
    | none => some 0
    | some j => if x < xs.getD j 0 then some (j + 1) else some 0

/-- The per-example decode step of `predict` (and, before its 0-indexed
comparison, of `evaluate_model`):
`torch.argmax(logits[i, :valid_len]).item() + 1`. -/
def predictOne (l : List ℚ) (k : ℕ) : Except Unit ℕ :=
  match torch_argmax (l.take k) with
  | none => .error ()
  | some j => .ok (j + 1)

/-- The spec's per-example loss (§4.5): categorical cross-entropy between the
restricted vector `L[0:k]` and the 0-indexed target `s - 1`. -/
def spec_ce (E Lg : ℚ → ℚ) (L : List ℚ) (s : ℤ) (k : ℕ) : ℚ :=
  Lg (∑ i ∈ Finset.range k, E (L.getD i 0)) - L.getD (s - 1).toNat 0

/-- The `StressModel` of `Test-checkpoint.ipynb` (bidirectional variant),
with the numeric kernels abstract: `embedding` is the row lookup of
`nn.Embedding(vocab_size, embed_dim, padding_idx=0)`; `lstm_fwd` and
`lstm_bwd` are the two directions' LSTM cells acting on an `(h, c)` state
pair; `h0c0` is the zero initial state; `fc` is the linear classifier applied
to the concatenated final hidden states.  `α` is the hidden-state type, `β`
the embedding-vector type. -/
structure StressModel (α β : Type) where
  embedding : ℕ → β
  lstm_fwd : α × α → β → α × α
  lstm_bwd : α × α → β → α × α
  h0c0 : α × α
  fc : α → α → List ℚ

/-- Embedding of `StressModel.forward(x, lengths)` for one example: per the semantics of
`pack_padded_sequence`, the recurrence consumes only the first `len` tokens
(the padded tail is never fed to the LSTM); `h_n[0]` is the forward
direction's state after the last real token, `h_n[1]` the backward
direction's state after consuming the real tokens in reverse; the classifier
is applied to their concatenation. -/
def StressModel.forward {α β : Type} (m : StressModel α β) (x : List ℕ) (len : ℕ) :
    List ℚ :=
  let seq := (x.take len).map m.embedding
  let hF := (seq.foldl m.lstm_fwd m.h0c0).1
  let hB := (seq.reverse.foldl m.lstm_bwd m.h0c0).1
  m.fc hF hB

/-- Python `max(list)` (raises on an empty list). -/
def pythonMax (l : List ℕ) : Except Unit ℕ :=
  match l with
  | [] => .error ()
  | x :: xs => .ok (xs.foldl max x)

/-- The shape-bearing view of a torch module / its `state_dict`: the
embedding table has `vocab_size` rows and the classifier `num_classes`
output rows; `params` stands for the numeric parameter contents. -/
structure TorchModel (P : Type) where
  vocab_size : ℕ
  num_classes : ℕ
  params : P
deriving DecidableEq

/-- Embedding of `model.load_state_dict(saved)`: succeeds only when the saved tensors'
shapes match the freshly constructed model's shapes (otherwise PyTorch
raises a size-mismatch error before anything runs); on success the model's
parameters are replaced wholesale by the saved ones. -/
def load_state_dict {P : Type} (target saved : TorchModel P) :
    Except Unit (TorchModel P) :=
  if target.vocab_size = saved.vocab_size ∧ target.num_classes = saved.num_classes
  then .ok { target with params := saved.params }
  else .error ()

/-- The checkpoint persisted by train mode:
`{'model_state_dict': ..., 'char2idx': ...}`. -/
structure Checkpoint (P : Type) where
  model_state : TorchModel P
  char2idx : List (String × ℕ)
deriving DecidableEq

/-- The train branch of `main` in `Test-checkpoint.ipynb` (bidirectional):
the model is constructed with `vocab_size = len(char2idx)` (vocabulary built
from the training words) and `num_classes = max(train_dataset.num_syllables)`;
training changes only the numeric parameters (`trainedP`); the checkpoint
pairs the trained model's `state_dict` with the training vocabulary. -/
def train_main_bi (P : Type) (train_words : List String) (train_nsyll : List ℕ)
    (trainedP : P) : Except Unit (Checkpoint P) :=
  match pythonMax train_nsyll with
  | .error e => .error e
  | .ok mx =>
    .ok { model_state :=
            { vocab_size := (build_vocab train_words).length,
              num_classes := mx, params := trainedP },
          char2idx := build_vocab train_words }

/-- The train branch of `main` in `Test-Copy1-checkpoint.ipynb`
(unidirectional): `StressModel(...)` is constructed without a `num_classes`
argument, so the constructor default `num_classes = 6` is used regardless of
the dataset. -/
def train_main_uni (P : Type) (train_words : List String) (train_nsyll : List ℕ)
    (trainedP : P) : Checkpoint P :=
  { model_state :=
      { vocab_size := (build_vocab train_words).length,
        num_classes := 6, params := trainedP },
    char2idx := build_vocab train_words }

/-- The model-reconstruction step of the predict branch in
`Test-checkpoint.ipynb`: the vocabulary size is taken from the checkpoint's
`char2idx`, but `num_classes` is `max(test_dataset.num_syllables)` — computed
afresh from the inference dataset. -/
def predict_reconstruct_bi (P : Type) (ckpt : Checkpoint P) (test_nsyll : List ℕ)
    (freshP : P) : Except Unit (TorchModel P) :=
  match pythonMax test_nsyll with
  | .error e => .error e
  | .ok mx =>
    .ok { vocab_size := ckpt.char2idx.length, num_classes := mx, params := freshP }

/-- The predict branch of `main` in `Test-checkpoint.ipynb` up to the model
that `predict` runs: reconstruct the model, then `load_state_dict` from the
checkpoint. -/
def predict_model_bi (P : Type) (ckpt : Checkpoint P) (test_nsyll : List ℕ)
    (freshP : P) : Except Unit (TorchModel P) :=
  match predict_reconstruct_bi P ckpt test_nsyll freshP with
  | .error e => .error e
  | .ok m => load_state_dict m ckpt.model_state

/-- The model-reconstruction step of the predict branch in
`Test-Copy1-checkpoint.ipynb`: vocabulary size from the checkpoint, default
`num_classes = 6`, with no dependence on the inference data. -/
def predict_reconstruct_uni (P : Type) (ckpt : Checkpoint P) (freshP : P) :
    TorchModel P :=
  { vocab_size := ckpt.char2idx.length, num_classes := 6, params := freshP }

def predict_model_uni (P : Type) (ckpt : Checkpoint P) (freshP : P) :
    Except Unit (TorchModel P) :=
  load_state_dict (predict_reconstruct_uni P ckpt freshP) ckpt.model_state

/-- The prediction loop of `predict(model, dataloader, device)`: for each
example, run the forward pass and decode the first `num_syllables` logits;
`logitsOf` is the deterministic eval-mode forward computation of the network
given its parameters, an encoded word and its true length.  Data records are
`(encoded word, true length, syllable count)`. -/
def predict_run (P : Type) (logitsOf : P → List ℕ → ℕ → List ℚ)
    (m : TorchModel P) : List (List ℕ × ℕ × ℕ) → Except Unit (List ℕ)
  | [] => .ok []
  | (x, len, k) :: rest =>
    match predictOne (logitsOf m.params x len) k, predict_run P logitsOf m rest with
    | .ok p, .ok ps => .ok (p :: ps)
    | _, _ => .error ()

/-- The test dataset assembly of the predict branch: each word is encoded
with the checkpoint's `char2idx`; its true (pre-padding) length is the
encoded sequence's length; it is paired with its syllable count. -/
def make_test_data (char2idx : List (String × ℕ)) (ws : List String) (ks : List ℕ) :
    List (List ℕ × ℕ × ℕ) :=
  (ws.zip ks).map
    (fun p => (encode_word p.1 char2idx, (encode_word p.1 char2idx).length, p.2))

/-- The whole predict branch of `main` in `Test-checkpoint.ipynb`: load the
checkpoint, rebuild the test dataset with the checkpoint's vocabulary,
reconstruct the model (class count from the test data), load the state dict,
and run the prediction loop. -/
def predict_main_bi (P : Type) (logitsOf : P → List ℕ → ℕ → List ℚ)
    (ckpt : Checkpoint P) (test_words : List String) (test_nsyll : List ℕ)
    (freshP : P) : Except Unit (List ℕ) :=
  match predict_model_bi P ckpt test_nsyll freshP with
  | .error e => .error e
  | .ok m => predict_run P logitsOf m (make_test_data ckpt.char2idx test_words test_nsyll)

/-- The whole predict branch of `main` in `Test-Copy1-checkpoint.ipynb`. -/
def predict_main_uni (P : Type) (logitsOf : P → List ℕ → ℕ → List ℚ)
    (ckpt : Checkpoint P) (test_words : List String) (test_nsyll : List ℕ)
    (freshP : P) : Except Unit (List ℕ) :=
  match predict_model_uni P ckpt freshP with
  | .error e => .error e
  | .ok m => predict_run P logitsOf m (make_test_data ckpt.char2idx test_words test_nsyll)

lemma char_toString_injective {a b : Char} (h : a.toString = b.toString) : a = b := by
  have h2 : ([a] : List Char) = [b] := by
    have ha : (Char.toString a).data = [a] := rfl
    have hb : (Char.toString b).data = [b] := rfl
    rw [← ha, ← hb, h]
  simpa using h2

lemma char_toString_ne_pad (c : Char) : (c.toString == "<PAD>") = false := by
  by_contra h
  have h1 : c.toString = "<PAD>" := by
    simpa [beq_iff_eq] using h
  have h2 : (Char.toString c).data = ("<PAD>" : String).data := by rw [h1]
  have h3 : ([c] : List Char).length = ("<PAD>" : String).data.length := by
    have : (Char.toString c).data = [c] := rfl
    rw [← this, h2]
  simp at h3

/-- Looking up a character in the enumerated part of the vocabulary finds the
first occurrence of that character, at its `indexOf` position, offset by the
enumeration start. -/
lemma dictGet_enumFrom_map (l : List Char) (c : Char) (hc : c ∈ l) (n : ℕ)
    (rest : List (String × ℕ)) :
    dictGet (((l.enumFrom n).map (fun p => (p.2.toString, p.1 + 1))) ++ rest) c.toString =
      some (n + l.indexOf c + 1) := by
  induction l generalizing n with
  | nil => cases hc
  | cons x xs ih =>
    by_cases hx : x = c
    · subst hx
      simp [dictGet, List.enumFrom, List.find?, List.indexOf_cons]
    · have hmem : c ∈ xs := by
        cases hc with
        | head => exact absurd rfl hx
        | tail _ h => exact h
      have hne : (x.toString == c.toString) = false := by
        by_contra h
        have : x.toString = c.toString := by simpa [beq_iff_eq] using h
        exact hx (char_toString_injective this)
      have ih2 := ih hmem (n + 1)
      simp only [dictGet] at ih2
      simp only [dictGet, List.enumFrom, List.map_cons, List.cons_append,
        List.append_eq, List.find?, hne]
      rw [ih2]
      have hx2 : (x == c) = false := by
        simpa [beq_iff_eq] using hx
      have hidx : List.indexOf c (x :: xs) = xs.indexOf c + 1 := by
        rw [List.indexOf_cons, hx2]
        rfl
      rw [hidx]
      congr 1
      omega

/-- In a list sorted under `≤`, the index of the first occurrence of a member
equals the number of elements strictly below it. -/
lemma indexOf_sorted_eq_filter_length (l : List Char) (hs : l.Sorted (· ≤ ·))
    (c : Char) (hc : c ∈ l) :
    l.indexOf c = (l.filter (fun d => decide (d < c))).length := by
  induction l with
  | nil => cases hc
  | cons x xs ih =>
    have hle : ∀ d ∈ xs, x ≤ d := fun d hd => (List.sorted_cons.mp hs).1 d hd
    by_cases hx : x = c
    · subst hx
      have hnone : ∀ d ∈ xs, ¬(d < x) := fun d hd => not_lt_of_le (hle d hd)
      have hfi : xs.filter (fun d => decide (d < x)) = [] := by
        apply List.filter_eq_nil_iff.mpr
        intro d hd
        simpa using hnone d hd
      simp [List.indexOf_cons, List.filter_cons, hfi]
    · have hmem : c ∈ xs := by
        cases hc with
        | head => exact absurd rfl hx
        | tail _ h => exact h
      have hxc : x < c := lt_of_le_of_ne (hle c hmem) hx
      have hx2 : (x == c) = false := by simpa [beq_iff_eq] using hx
      have := ih (List.sorted_cons.mp hs).2 hmem
      simp [List.indexOf_cons, hx2, List.filter_cons, hxc, this]

lemma sorted_vocab_chars (words : List String) :
    (sortedChars words).Sorted (· ≤ ·) :=
  List.sorted_insertionSort (fun a b => a ≤ b) ((words.flatMap String.toList).dedup)

lemma mem_vocab_chars_iff (words : List String) (c : Char) :
    c ∈ sortedChars words ↔ c ∈ words.flatMap String.toList := by
  rw [sortedChars]
  rw [(List.perm_insertionSort (fun a b => a ≤ b)
    ((words.flatMap String.toList).dedup)).mem_iff]
  exact List.mem_dedup

/-- C6, part (a): every character occurring in the input words is mapped to
one plus the number of distinct occurring characters strictly below it (the
`1..N`-in-sorted-order assignment), via the sorted distinct-character list. -/
lemma dictGet_build_vocab (words : List String) (c : Char)
    (hc : c ∈ words.flatMap String.toList) :
    dictGet (build_vocab words) c.toString =
      some (((words.flatMap String.toList).dedup.filter (fun d => decide (d < c))).length + 1) := by
  have hmem : c ∈ sortedChars words := (mem_vocab_chars_iff words c).mpr hc
  have h1 := dictGet_enumFrom_map (sortedChars words) c hmem 0 [("<PAD>", 0)]
  have h2 := indexOf_sorted_eq_filter_length (sortedChars words)
    (sorted_vocab_chars words) c hmem
  have h3 : ((sortedChars words).filter (fun d => decide (d < c))).length =
      ((words.flatMap String.toList).dedup.filter (fun d => decide (d < c))).length :=
    ((List.perm_insertionSort (fun a b => a ≤ b)
      ((words.flatMap String.toList).dedup)).filter _).length_eq
  rw [build_vocab]
  rw [show (sortedChars words).enum = (sortedChars words).enumFrom 0 from rfl]
  rw [h1, h2, h3]
  simp

/-- C6, part (b): the reserved padding entry is looked up as index `0`. -/
lemma dictGet_build_vocab_pad (words : List String) :
    dictGet (build_vocab words) "<PAD>" = some 0 := by
  rw [build_vocab, dictGet, List.find?_append]
  have hnone : ((sortedChars words).enum.map
      (fun p => (p.2.toString, p.1 + 1))).find? (fun p => p.1 == "<PAD>") = none := by
    apply List.find?_eq_none.mpr
    intro p hp
    obtain ⟨q, _, rfl⟩ := List.mem_map.mp hp
    simpa using char_toString_ne_pad q.2
  rw [hnone]
  simp [List.find?]

/-- C6: for every collection of words, the vocabulary builder maps each
occurring character `c` to `1 + #{distinct occurring characters below c}` —
the assignment of indices `1..N` in sorted codepoint order to the `N` distinct
characters, hence every real character's index is positive; it maps the
reserved padding entry to `0`; it has exactly `N + 1` entries; it is
deterministic; and on an empty collection it yields only the padding entry. -/
theorem C6_build_vocab (words : List String) :
    (∀ c ∈ words.flatMap String.toList,
      dictGet (build_vocab words) c.toString =
        some (((words.flatMap String.toList).dedup.filter
          (fun d => decide (d < c))).length + 1)) ∧
    dictGet (build_vocab words) "<PAD>" = some 0 ∧
    (build_vocab words).length = (words.flatMap String.toList).dedup.length + 1 ∧
    build_vocab words = build_vocab words ∧
    build_vocab [] = [("<PAD>", 0)] := by
  refine ⟨fun c hc => dictGet_build_vocab words c hc, dictGet_build_vocab_pad words,
    ?_, rfl, ?_⟩
  · have hp := (List.perm_insertionSort (fun a b => a ≤ b)
      ((words.flatMap String.toList).dedup)).length_eq
    simp [build_vocab, sortedChars, hp]
  · rfl

/-- Witness for C6 at the concrete collection `["ba"]`: the character `'a'`
occurs, is assigned index 1 (`'b'` gets 2), and the padding entry is 0. -/
theorem C6_build_vocab_witness :
    ('a' ∈ ["ba"].flatMap String.toList) ∧
    dictGet (build_vocab ["ba"]) ('a'.toString) = some 1 ∧
    dictGet (build_vocab ["ba"]) "<PAD>" = some 0 := by
  refine ⟨by decide, ?_, (C6_build_vocab ["ba"]).2.1⟩
  have h := (C6_build_vocab ["ba"]).1 'a' (by decide)
  rw [h]
  decide

/-- C7: for every word and every vocabulary mapping, `encode_word` returns
exactly one index per character (output length = word length), and the entry
at each position is the mapping's index of that character, or `0` when the
character is absent (`Option.getD` of the lookup) — a total function, so no
error is possible regardless of vocabulary coverage. -/
theorem C7_encode_word (word : String) (char2idx : List (String × ℕ)) :
    (encode_word word char2idx).length = word.length ∧
    ∀ i : ℕ, (encode_word word char2idx)[i]? =
      (word.toList[i]?).map (fun ch => (dictGet char2idx ch.toString).getD 0) := by
  constructor
  · show (word.toList.map _).length = word.length
    rw [List.length_map]
    rfl
  · intro i
    simp [encode_word]

lemma torch_argmax_cons (x : ℚ) (xs : List ℚ) :
    torch_argmax (x :: xs) = match torch_argmax xs with
      | none => some 0
      | some j => if x < xs.getD j 0 then some (j + 1) else some 0 := rfl

lemma getD_indexOf {l : List ℚ} {m : ℚ} (hm : m ∈ l) :
    l.getD (l.indexOf m) 0 = m := by
  have h := List.indexOf_lt_length.mpr hm
  rw [List.getD_eq_getElem l 0 h]
  exact List.getElem_indexOf h

/-- The embedded `torch.argmax` returns the index of the first occurrence of the maximum. -/
lemma torch_argmax_eq_indexOf_maximum (l : List ℚ) (hl : l ≠ []) :
    ∃ m : ℚ, l.maximum = some m ∧ torch_argmax l = some (l.indexOf m) := by
  induction l with
  | nil => exact absurd rfl hl
  | cons x xs ih =>
    cases xs with
    | nil =>
      refine ⟨x, ?_, ?_⟩
      · rw [List.maximum_singleton]
        rfl
      · rw [torch_argmax_cons]
        simp [torch_argmax, List.indexOf_cons]
    | cons y ys =>
      obtain ⟨m, hm, ha⟩ := ih (by simp)
      have hmem : m ∈ y :: ys := List.maximum_mem hm
      have hgd : (y :: ys).getD ((y :: ys).indexOf m) 0 = m := getD_indexOf hmem
      by_cases hlt : x < m
      · refine ⟨m, ?_, ?_⟩
        · rw [List.maximum_cons, hm]
          have : (x : WithBot ℚ) ⊔ (m : WithBot ℚ) = (m : WithBot ℚ) := by
            rw [← WithBot.coe_sup]
            exact congrArg _ (sup_eq_right.mpr hlt.le)
          exact this
        · rw [torch_argmax_cons, ha]
          have hxm : (x == m) = false := by
            simpa [beq_iff_eq] using ne_of_lt hlt
          dsimp only
          rw [hgd, if_pos hlt]
          have hidx : List.indexOf m (x :: y :: ys) = List.indexOf m (y :: ys) + 1 := by
            rw [List.indexOf_cons, hxm]
            rfl
          rw [hidx]
      · refine ⟨x, ?_, ?_⟩
        · rw [List.maximum_cons, hm]
          have : (x : WithBot ℚ) ⊔ (m : WithBot ℚ) = (x : WithBot ℚ) := by
            rw [← WithBot.coe_sup]
            exact congrArg _ (sup_eq_left.mpr (not_lt.mp hlt))
          exact this
        · rw [torch_argmax_cons, ha]
          dsimp only
          rw [hgd, if_neg hlt]
          simp [List.indexOf_cons]

lemma getD_ne_of_lt_indexOf {l : List ℚ} {m : ℚ} {i : ℕ} (h : i < l.indexOf m) :
    l.getD i 0 ≠ m := by
  induction l generalizing i with
  | nil =>
    rw [List.indexOf_nil] at h
    exact absurd h (Nat.not_lt_zero i)
  | cons x xs ih =>
    by_cases hx : x = m
    · subst hx
      simp [List.indexOf_cons] at h
    · have hx2 : (x == m) = false := by simpa [beq_iff_eq] using hx
      rw [List.indexOf_cons, hx2] at h
      simp only [cond_false] at h
      cases i with
      | zero => simpa [List.getD_cons_zero] using hx
      | succ n =>
        rw [List.getD_cons_succ]
        exact ih (by omega)

/-- C2: for every syllable count `k ≥ 1` and logit row of width `≥ k`, the
decode step of `predict` returns `1 +` (the lowest index of a maximum of the
first `k` entries): the decoded value is `ok` of one plus the first position
of the maximum of `L[0:k]` (entries before it are strictly smaller — the
deterministic first-occurrence tie-break; all entries of the prefix are `≤`
it), and the result depends only on the first `k` entries of the row, so no
entry at an index `≥ k` is ever read. -/
theorem C2_predict_decode (L : List ℚ) (k : ℕ) (h1 : 1 ≤ k) (h2 : k ≤ L.length) :
    (∃ m : ℚ, (L.take k).maximum = some m ∧
      predictOne L k = .ok ((L.take k).indexOf m + 1) ∧
      (∀ i : ℕ, i < k → (L.take k).getD i 0 ≤ m) ∧
      (∀ i : ℕ, i < (L.take k).indexOf m → (L.take k).getD i 0 < m)) ∧
    (∀ L2 : List ℚ, L.take k = L2.take k → predictOne L2 k = predictOne L k) := by
  have hlen : (L.take k).length = k := by
    rw [List.length_take]
    omega
  have hne : L.take k ≠ [] := by
    intro h
    rw [h] at hlen
    simp at hlen
    omega
  obtain ⟨m, hm, ha⟩ := torch_argmax_eq_indexOf_maximum (L.take k) hne
  have hle : ∀ i : ℕ, i < k → (L.take k).getD i 0 ≤ m := by
    intro i hi
    have hil : i < (L.take k).length := by omega
    have hmem : (L.take k).getD i 0 ∈ L.take k := by
      rw [List.getD_eq_getElem _ _ hil]
      exact List.getElem_mem hil
    exact List.le_maximum_of_mem hmem hm
  refine ⟨⟨m, hm, ?_, hle, ?_⟩, ?_⟩
  · simp only [predictOne]
    rw [ha]
  · intro i hi
    have hidxlen : (L.take k).indexOf m < (L.take k).length :=
      List.indexOf_lt_length.mpr (List.maximum_mem hm)
    exact lt_of_le_of_ne (hle i (by omega)) (getD_ne_of_lt_indexOf hi)
  · intro L2 hL2
    simp only [predictOne]
    rw [← hL2]

/-- Witness for C2 at the spec's concrete input: logits
`[0.1, 5.0, 0.2, 9.9, 0.0, 0.0]` with `k = 3` decode to stress position 2,
ignoring the larger entries at indices 3 and 4. -/
theorem C2_predict_decode_witness :
    ((1 : ℕ) ≤ 3 ∧ (3 : ℕ) ≤ ([(1 : ℚ)/10, 5, 1/5, 99/10, 0, 0] : List ℚ).length) ∧
    predictOne [(1 : ℚ)/10, 5, 1/5, 99/10, 0, 0] 3 = .ok 2 := by
  obtain ⟨⟨m, hm, he, hle, _⟩, _⟩ :=
    C2_predict_decode [(1 : ℚ)/10, 5, 1/5, 99/10, 0, 0] 3 (by norm_num) (by norm_num)
  have h5 : (5 : ℚ) ≤ m := by
    have := hle 1 (by norm_num)
    simpa using this
  have hmem : m ∈ ([(1 : ℚ)/10, 5, 1/5, 99/10, 0, 0] : List ℚ).take 3 :=
    List.maximum_mem hm
  have hm5 : m = 5 := by
    have : m = 1/10 ∨ m = 5 ∨ m = 1/5 := by simpa using hmem
    rcases this with h | h | h
    · subst h; norm_num at h5
    · exact h
    · subst h; norm_num at h5
  subst hm5
  refine ⟨⟨by norm_num, by norm_num⟩, ?_⟩
  rw [he]
  norm_num [List.indexOf_cons]

lemma take_map_sum (f : ℚ → ℚ) (L : List ℚ) (k : ℕ) (hk : k ≤ L.length) :
    ((L.take k).map f).sum = ∑ i ∈ Finset.range k, f (L.getD i 0) := by
  induction L generalizing k with
  | nil =>
    have : k = 0 := by simpa using hk
    subst this
    simp
  | cons x xs ih =>
    cases k with
    | zero => simp
    | succ n =>
      rw [List.take_succ_cons, List.map_cons, List.sum_cons, Finset.sum_range_succ']
      simp only [List.getD_cons_succ, List.getD_cons_zero]
      rw [ih n (by simpa using hk)]
      ring

lemma getD_take (L : List ℚ) (k i : ℕ) (hi : i < k) :
    (L.take k).getD i 0 = L.getD i 0 := by
  rw [List.getD_eq_getElem?_getD, List.getD_eq_getElem?_getD, List.getElem?_take]
  simp [hi]

/-- On an in-range example, the sliced cross-entropy of the code equals the
spec's restricted categorical cross-entropy. -/
lemma cross_entropy_take_ok (E Lg : ℚ → ℚ) (L : List ℚ) (s : ℤ) (k : ℕ)
    (hs1 : 1 ≤ s) (hs2 : s ≤ (k : ℤ)) (hk : k ≤ L.length) :
    cross_entropy E Lg (L.take k) (s - 1) = .ok (.val (spec_ce E Lg L s k)) := by
  have hlen : (L.take k).length = k := by
    rw [List.length_take]
    omega
  have hcond : 0 ≤ s - 1 ∧ s - 1 < ((L.take k).length : ℤ) := by
    constructor
    · omega
    · rw [hlen]
      omega
  rw [cross_entropy, if_neg (by omega), if_pos hcond]
  rw [spec_ce]
  congr 3
  · exact congrArg Lg (take_map_sum E L k hk)
  · have hti : (s - 1).toNat < k := by omega
    exact getD_take L k _ hti

lemma lossSum_ok (E Lg : ℚ → ℚ) (batch : List (List ℚ × ℤ × ℕ))
    (h : ∀ b ∈ batch, 1 ≤ b.2.1 ∧ b.2.1 ≤ (b.2.2 : ℤ) ∧ b.2.2 ≤ b.1.length) :
    lossSum E Lg batch =
      .ok (.val ((batch.map (fun b => spec_ce E Lg b.1 b.2.1 b.2.2)).sum)) := by
  induction batch with
  | nil => rfl
  | cons b rest ih =>
    have hb := h b (List.mem_cons_self b rest)
    rw [lossSum, cross_entropy_take_ok E Lg b.1 b.2.1 b.2.2 hb.1 hb.2.1 hb.2.2,
      ih (fun x hx => h x (List.mem_cons_of_mem b hx))]
    simp [PyFloat.add]

lemma lossSum_take_invariant (E Lg : ℚ → ℚ) (b1 : List (List ℚ × ℤ × ℕ)) :
    ∀ b2 : List (List ℚ × ℤ × ℕ),
      b1.map (fun b => (b.1.take b.2.2, b.2.1, b.2.2)) =
        b2.map (fun b => (b.1.take b.2.2, b.2.1, b.2.2)) →
      lossSum E Lg b1 = lossSum E Lg b2 := by
  induction b1 with
  | nil =>
    intro b2 h
    cases b2 with
    | nil => rfl
    | cons c cs => simp at h
  | cons b rest ih =>
    intro b2 h
    cases b2 with
    | nil => simp at h
    | cons c cs =>
      simp only [List.map_cons, List.cons.injEq, Prod.mk.injEq] at h
      obtain ⟨⟨ht, hs, _⟩, hrest⟩ := h
      rw [lossSum, lossSum, ht, hs, ih cs hrest]

/-- C3: for every nonempty batch of in-range examples (stress `s ∈ [1, k]`,
row width `≥ k`), the masked loss equals the arithmetic mean over the batch
of the categorical cross-entropy between the restricted row `L[0:k]` and
target `s - 1`; and the loss is a function of each example's first `k` logit
entries only, so entries at indices `≥ k` are excluded entirely (hence they
influence neither the value nor its gradient). -/
theorem C3_masked_loss (E Lg : ℚ → ℚ) (batch : List (List ℚ × ℤ × ℕ))
    (hne : batch ≠ [])
    (h : ∀ b ∈ batch, 1 ≤ b.2.1 ∧ b.2.1 ≤ (b.2.2 : ℤ) ∧ b.2.2 ≤ b.1.length) :
    masked_cross_entropy_loss E Lg batch =
      .ok (.val ((batch.map (fun b => spec_ce E Lg b.1 b.2.1 b.2.2)).sum /
        (batch.length : ℚ))) ∧
    ∀ batch2 : List (List ℚ × ℤ × ℕ),
      batch.map (fun b => (b.1.take b.2.2, b.2.1, b.2.2)) =
        batch2.map (fun b => (b.1.take b.2.2, b.2.1, b.2.2)) →
      masked_cross_entropy_loss E Lg batch2 = masked_cross_entropy_loss E Lg batch := by
  have hlen0 : ¬(batch.length = 0) := by
    intro h0
    exact hne (List.length_eq_zero.mp h0)
  constructor
  · rw [masked_cross_entropy_loss, if_neg hlen0, lossSum_ok E Lg batch h]
    rfl
  · intro batch2 h2
    have hlen : batch2.length = batch.length := by
      have := congrArg List.length h2
      simp only [List.length_map] at this
      exact this.symm
    rw [masked_cross_entropy_loss, masked_cross_entropy_loss, hlen,
      lossSum_take_invariant E Lg batch batch2 h2]

/-- Witness for C3 on the concrete batch `[([1, 2], 2, 2)]` with `E = Lg = id`:
the loss is the mean restricted cross-entropy `((1 + 2) - 2) / 1 = 1`. -/
theorem C3_masked_loss_witness :
    (([([1, 2], 2, 2)] : List (List ℚ × ℤ × ℕ)) ≠ [] ∧
      (1 : ℤ) ≤ 2 ∧ (2 : ℤ) ≤ ((2 : ℕ) : ℤ) ∧ (2 : ℕ) ≤ ([1, 2] : List ℚ).length) ∧
    masked_cross_entropy_loss id id [([1, 2], 2, 2)] = .ok (.val 1) := by
  have h := (C3_masked_loss id id [([1, 2], 2, 2)] (by simp)
    (by
      intro b hb
      simp only [List.mem_singleton] at hb
      subst hb
      refine ⟨by norm_num, by norm_num, by norm_num⟩)).1
  refine ⟨⟨by simp, by norm_num, by norm_num, by norm_num⟩, ?_⟩
  rw [h]
  simp [spec_ce, Finset.sum_range_succ]

lemma cross_entropy_take_error (E Lg : ℚ → ℚ) (L : List ℚ) (s : ℤ) (k : ℕ)
    (hk : k ≤ L.length) (hbad : k = 0 ∨ s < 1 ∨ (k : ℤ) < s) (hign : s ≠ -99) :
    cross_entropy E Lg (L.take k) (s - 1) = .error () := by
  have hlen : (L.take k).length = k := by
    rw [List.length_take]
    omega
  have hncond : ¬(0 ≤ s - 1 ∧ s - 1 < ((L.take k).length : ℤ)) := by
    rw [hlen]
    rintro ⟨h1, h2⟩
    rcases hbad with h | h | h <;> omega
  rw [cross_entropy, if_neg (by omega), if_neg hncond]

/-- With the ignored stress label `-99` (0-indexed target `-100`,
`F.cross_entropy`'s default ignore index), the per-example loss call raises
nothing and evaluates to NaN, regardless of the row and syllable count. -/
lemma cross_entropy_ignored (E Lg : ℚ → ℚ) (l : List ℚ) :
    cross_entropy E Lg l ((-99 : ℤ) - 1) = .ok .nan := by
  rw [cross_entropy, if_pos (by norm_num)]

/-- A singleton batch whose stress label is `-99` yields the NaN loss — no
error is raised and nothing aborts. -/
lemma masked_loss_ignored (E Lg : ℚ → ℚ) (L2 : List ℚ) (k2 : ℕ) :
    masked_cross_entropy_loss E Lg [(L2, -99, k2)] = .ok .nan := by
  have hce : cross_entropy E Lg (L2.take k2) ((-99 : ℤ) - 1) = .ok .nan :=
    cross_entropy_ignored E Lg (L2.take k2)
  have hsum : lossSum E Lg [(L2, -99, k2)] = .ok (PyFloat.nan.add (.val 0)) := by
    simp only [lossSum]
    rw [hce]
  rw [masked_cross_entropy_loss, if_neg (by simp), hsum]
  rfl

lemma lossSum_error_of_mem (E Lg : ℚ → ℚ) (batch : List (List ℚ × ℤ × ℕ))
    (b : List ℚ × ℤ × ℕ) (hb : b ∈ batch)
    (he : cross_entropy E Lg (b.1.take b.2.2) (b.2.1 - 1) = .error ()) :
    lossSum E Lg batch = .error () := by
  induction batch with
  | nil => cases hb
  | cons c rest ih =>
    rw [lossSum]
    rcases List.mem_cons.mp hb with hcb | hcb
    · subst hcb
      rw [he]
    · cases hce : cross_entropy E Lg (c.1.take c.2.2) (c.2.1 - 1) with
      | error e => rfl
      | ok v => rw [ih hcb]

/-- C5 amended: any batch containing an example whose syllable count is zero
or whose stress label lies outside `[1, k]` makes the loss step fail with an
error — aborting the whole batch rather than clamping or skipping — except
for the single label whose 0-indexed target is `F.cross_entropy`'s default
ignore index `-100`: a stress label of `-99` raises nothing, the example is
silently ignored, and a (singleton) batch containing it gets the NaN loss.
For syllable count zero the decoding step always fails. -/
theorem C5_data_integrity_error (E Lg : ℚ → ℚ) (pre post : List (List ℚ × ℤ × ℕ))
    (L : List ℚ) (s : ℤ) (k : ℕ) (hk : k ≤ L.length)
    (hbad : k = 0 ∨ s < 1 ∨ (k : ℤ) < s) (hign : s ≠ -99) :
    masked_cross_entropy_loss E Lg (pre ++ (L, s, k) :: post) = .error () ∧
    (k = 0 → predictOne L k = .error ()) ∧
    (∀ (L2 : List ℚ) (k2 : ℕ),
      masked_cross_entropy_loss E Lg [(L2, -99, k2)] = .ok .nan) := by
  refine ⟨?_, ?_, fun L2 k2 => masked_loss_ignored E Lg L2 k2⟩
  · have hsum := lossSum_error_of_mem E Lg (pre ++ (L, s, k) :: post) (L, s, k)
      (by simp) (cross_entropy_take_error E Lg L s k hk hbad hign)
    have hlen0 : ¬((pre ++ (L, s, k) :: post).length = 0) := by simp
    rw [masked_cross_entropy_loss, if_neg hlen0, hsum]
  · intro h0
    subst h0
    rfl

/-- Counterexample to C5 as stated: the stress label `-99` lies outside
`[1, 2]`, yet the loss step on `([1, 2], -99, 2)` does not fail — the
0-indexed target `-100` is `F.cross_entropy`'s default ignore index, so the
example is silently ignored and the batch loss evaluates to NaN with no
error raised and no abort. -/
theorem C5_counterexample :
    ((-99 : ℤ) < 1) ∧
    masked_cross_entropy_loss id id [([1, 2], -99, 2)] = .ok .nan ∧
    masked_cross_entropy_loss id id [([1, 2], -99, 2)] ≠ .error () := by
  refine ⟨by norm_num, masked_loss_ignored id id [1, 2] 2, ?_⟩
  rw [masked_loss_ignored id id [1, 2] 2]
  simp

/-- Witness for C5 (amended): a zero syllable count makes both the loss and
the decode step fail; an out-of-range stress label (5 on 2 syllables) makes
the loss fail; and the ignored label `-99` yields the NaN loss instead. -/
theorem C5_data_integrity_error_witness :
    ((0 : ℕ) ≤ ([1, 2] : List ℚ).length ∧
      ((0 : ℕ) = 0 ∨ (1 : ℤ) < 1 ∨ (((0 : ℕ) : ℤ) < 1)) ∧ (1 : ℤ) ≠ -99) ∧
    masked_cross_entropy_loss id id [([1, 2], 1, 0)] = .error () ∧
    predictOne [1, 2] 0 = .error () ∧
    masked_cross_entropy_loss id id [([1, 2], 5, 2)] = .error () ∧
    masked_cross_entropy_loss id id [([3], -99, 1)] = .ok .nan := by
  have h1 := C5_data_integrity_error id id [] [] [1, 2] 1 0 (by norm_num) (Or.inl rfl)
    (by norm_num)
  have h2 := C5_data_integrity_error id id [] [] [1, 2] 5 2 (by norm_num)
    (Or.inr (Or.inr (by norm_num))) (by norm_num)
  exact ⟨⟨by norm_num, Or.inl rfl, by norm_num⟩, h1.1, h1.2.1 rfl, h2.1,
    h1.2.2 [3] 1⟩

/-- C10 (implicit behaviour): when an example's syllable count `k` exceeds
the row width `C` (the model's class count), the slice `L[:k]` silently
evaluates to the full `C`-width row: decode succeeds with a value in
`[1, C]` — not `[1, k]` — with no error, and the masked loss on that example
errors exactly when the 0-indexed target `s - 1` is `≥ C`; neither operation
detects the `k > C` violation. -/
theorem C10_oversized_syllable_count (E Lg : ℚ → ℚ) (L : List ℚ) (k : ℕ) (s : ℤ)
    (hover : L.length < k) (hne : 1 ≤ L.length) :
    (∃ j : ℕ, predictOne L k = .ok j ∧ 1 ≤ j ∧ j ≤ L.length) ∧
    (1 ≤ s → (masked_cross_entropy_loss E Lg [(L, s, k)] = .error () ↔
      (L.length : ℤ) ≤ s - 1)) := by
  have htake : L.take k = L := List.take_of_length_le (le_of_lt hover)
  have hlen : (((L.take k).length : ℤ)) = (L.length : ℤ) := by rw [htake]
  constructor
  · have hl : L ≠ [] := by
      intro h
      rw [h] at hne
      simp at hne
    obtain ⟨m, hm, ha⟩ := torch_argmax_eq_indexOf_maximum L hl
    refine ⟨L.indexOf m + 1, ?_, by omega, ?_⟩
    · simp only [predictOne]
      rw [htake, ha]
    · have := List.indexOf_lt_length.mpr (List.maximum_mem hm)
      omega
  · intro hs
    rw [masked_cross_entropy_loss, if_neg (by simp)]
    rcases le_or_lt ((L.length : ℤ)) (s - 1) with hcase | hcase
    · have he : cross_entropy E Lg (L.take k) (s - 1) = .error () := by
        rw [cross_entropy, if_neg (by omega), if_neg]
        rintro ⟨h1, h2⟩
        rw [hlen] at h2
        omega
      have hsum : lossSum E Lg [(L, s, k)] = .error () := by
        simp only [lossSum]
        rw [he]
      rw [hsum]
      simp [hcase]
    · have hcond : 0 ≤ s - 1 ∧ s - 1 < ((L.take k).length : ℤ) := by
        constructor
        · omega
        · rw [hlen]
          omega
      have hok : cross_entropy E Lg (L.take k) (s - 1) =
          .ok (.val (Lg (((L.take k).map E).sum) - (L.take k).getD (s - 1).toNat 0)) := by
        rw [cross_entropy, if_neg (by omega), if_pos hcond]
      have hsum : lossSum E Lg [(L, s, k)] =
          .ok ((PyFloat.val
            (Lg (((L.take k).map E).sum) - (L.take k).getD (s - 1).toNat 0)).add
            (.val 0)) := by
        simp only [lossSum]
        rw [hok]
      rw [hsum]
      refine iff_of_false (by simp) (by omega)

/-- Witness for C10: a row of width 2 with claimed syllable count 5 decodes
without error to position 2 ∈ [1, 2], and the loss on it (stress label 3)
errors exactly because the 0-indexed target 2 is `≥ 2`. -/
theorem C10_oversized_syllable_count_witness :
    (([1, 2] : List ℚ).length < 5 ∧ 1 ≤ ([1, 2] : List ℚ).length) ∧
    predictOne [1, 2] 5 = .ok 2 ∧
    (masked_cross_entropy_loss id id [([1, 2], 3, 5)] = .error () ↔
      ((([1, 2] : List ℚ).length : ℤ) ≤ 3 - 1)) := by
  have h := C10_oversized_syllable_count id id [1, 2] 5 3 (by norm_num) (by norm_num)
  refine ⟨⟨by norm_num, by norm_num⟩, ?_, h.2 (by norm_num)⟩
  norm_num [predictOne, torch_argmax]

/-- C4: padded positions never influence the forward pass: two encoded words
that differ only in the number of trailing padding entries (index 0), with
the same correctly reported true length, produce identical per-example logit
vectors. -/
theorem C4_padding_invariance {α β : Type} (m : StressModel α β)
    (w pads pads2 : List ℕ)
    (hp : ∀ p ∈ pads, p = 0) (hp2 : ∀ p ∈ pads2, p = 0) :
    m.forward (w ++ pads) w.length = m.forward (w ++ pads2) w.length := by
  simp only [StressModel.forward, List.take_left]

/-- Witness for C4: a concrete instantiated model (sum-accumulator cells)
computes identical logits for the word `[3]` padded with one zero and with
two zeros. -/
theorem C4_padding_invariance_witness :
    (∀ p ∈ ([0] : List ℕ), p = 0) ∧ (∀ p ∈ ([0, 0] : List ℕ), p = 0) ∧
    StressModel.forward
      ⟨fun n => (n : ℚ), fun hc x => (hc.1 + x, hc.2), fun hc x => (hc.1 + x, hc.2),
        (0, 0), fun a b => [a + b]⟩ [3, 0] 1 =
    StressModel.forward
      ⟨fun n => (n : ℚ), fun hc x => (hc.1 + x, hc.2), fun hc x => (hc.1 + x, hc.2),
        (0, 0), fun a b => [a + b]⟩ [3, 0, 0] 1 := by
  refine ⟨by simp, by simp, ?_⟩
  exact C4_padding_invariance _ [3] [0] [0, 0] (by simp) (by simp)

/-- Counterexample to C1 as stated: training on syllable counts `[1, 2]`
saves a checkpoint whose model has 2 output classes, but predict on an
inference dataset with syllable counts `[1, 3]` reconstructs the model with
3 output classes — a class count inferred freshly from the inference-time
data, not the checkpoint's — and loading then aborts with a shape mismatch,
so no model with the checkpoint's class count ever runs. -/
theorem C1_counterexample :
    train_main_bi Unit ["ab"] [1, 2] () = .ok
      { model_state := { vocab_size := 3, num_classes := 2, params := () },
        char2idx := build_vocab ["ab"] } ∧
    predict_reconstruct_bi Unit
      { model_state := { vocab_size := 3, num_classes := 2, params := () },
        char2idx := build_vocab ["ab"] } [1, 3] () = .ok
      { vocab_size := 3, num_classes := 3, params := () } ∧
    (3 : ℕ) ≠ 2 ∧
    predict_model_bi Unit
      { model_state := { vocab_size := 3, num_classes := 2, params := () },
        char2idx := build_vocab ["ab"] } [1, 3] () = .error () := by
  refine ⟨by decide, by decide, by decide, by decide⟩

/-- C1 amended: in the bidirectional notebook, predict reconstructs the model
with the checkpoint's vocabulary size but with a class count computed freshly
as the maximum syllable count of the inference dataset; when that count
differs from the checkpoint's, `load_state_dict` fails before any prediction
runs, so whenever predict does run a model, that model's class count,
vocabulary size and parameters are exactly the checkpoint's.  In the
unidirectional notebook both train and predict use the fixed default class
count 6, so the equality always holds there. -/
theorem C1_predict_class_count (P : Type) (ckpt : Checkpoint P)
    (test_nsyll : List ℕ) (freshP : P) (train_words : List String)
    (train_nsyll : List ℕ) (trainedP : P) :
    (∀ m : TorchModel P, predict_reconstruct_bi P ckpt test_nsyll freshP = .ok m →
      m.vocab_size = ckpt.char2idx.length ∧ pythonMax test_nsyll = .ok m.num_classes) ∧
    (∀ m : TorchModel P, predict_model_bi P ckpt test_nsyll freshP = .ok m →
      m.num_classes = ckpt.model_state.num_classes ∧
      m.vocab_size = ckpt.model_state.vocab_size ∧
      m.params = ckpt.model_state.params) ∧
    (∀ mx : ℕ, pythonMax test_nsyll = .ok mx →
      mx ≠ ckpt.model_state.num_classes →
      predict_model_bi P ckpt test_nsyll freshP = .error ()) ∧
    ((train_main_uni P train_words train_nsyll trainedP).model_state.num_classes = 6 ∧
      (predict_reconstruct_uni P (train_main_uni P train_words train_nsyll trainedP)
        freshP).num_classes = 6) := by
  refine ⟨?_, ?_, ?_, rfl, rfl⟩
  · intro m hm
    cases hmx : pythonMax test_nsyll with
    | error e =>
      rw [predict_reconstruct_bi, hmx] at hm
      cases hm
    | ok mx =>
      rw [predict_reconstruct_bi, hmx] at hm
      simp only [Except.ok.injEq] at hm
      subst hm
      exact ⟨rfl, rfl⟩
  · intro m hm
    cases hmx : pythonMax test_nsyll with
    | error e =>
      rw [predict_model_bi, predict_reconstruct_bi, hmx] at hm
      cases hm
    | ok mx =>
      rw [predict_model_bi, predict_reconstruct_bi, hmx] at hm
      simp only [load_state_dict] at hm
      by_cases hcond : ckpt.char2idx.length = ckpt.model_state.vocab_size ∧
          mx = ckpt.model_state.num_classes
      · rw [if_pos hcond] at hm
        simp only [Except.ok.injEq] at hm
        subst hm
        exact ⟨hcond.2, hcond.1, rfl⟩
      · rw [if_neg hcond] at hm
        cases hm
  · intro mx hmx hneq
    rw [predict_model_bi, predict_reconstruct_bi, hmx]
    simp only [load_state_dict]
    rw [if_neg]
    rintro ⟨_, h2⟩
    exact hneq h2

/-- Witness for C1 (amended) at a matching checkpoint/dataset pair: predict
on syllable counts `[1, 2]` against a checkpoint with class count 2 loads
successfully, and the loaded model's class count equals the checkpoint's. -/
theorem C1_predict_class_count_witness :
    predict_model_bi Unit
      { model_state := { vocab_size := 3, num_classes := 2, params := () },
        char2idx := build_vocab ["ab"] } [1, 2] () = .ok
      { vocab_size := 3, num_classes := 2, params := () } ∧
    ({ vocab_size := 3, num_classes := 2, params := () } : TorchModel Unit).num_classes =
      ({ model_state := { vocab_size := 3, num_classes := 2, params := () },
         char2idx := build_vocab ["ab"] } : Checkpoint Unit).model_state.num_classes := by
  refine ⟨by decide, ?_⟩
  exact ((C1_predict_class_count Unit
    { model_state := { vocab_size := 3, num_classes := 2, params := () },
      char2idx := build_vocab ["ab"] } [1, 2] () ["ab"] [1, 2] ()).2.1
    { vocab_size := 3, num_classes := 2, params := () } (by decide)).1

lemma le_foldl_max (x : ℕ) (xs : List ℕ) : x ≤ xs.foldl max x := by
  induction xs generalizing x with
  | nil => exact le_refl x
  | cons y ys ih =>
    rw [List.foldl_cons]
    exact le_trans (le_max_left x y) (ih (max x y))

lemma mem_le_foldl_max (x : ℕ) (xs : List ℕ) : ∀ k ∈ xs, k ≤ xs.foldl max x := by
  induction xs generalizing x with
  | nil =>
    intro k hk
    cases hk
  | cons y ys ih =>
    intro k hk
    rw [List.foldl_cons]
    rcases List.mem_cons.mp hk with rfl | hk2
    · exact le_trans (le_max_right x k) (le_foldl_max (max x k) ys)
    · exact ih (max x y) k hk2

lemma foldl_max_mem (x : ℕ) (xs : List ℕ) : xs.foldl max x ∈ x :: xs := by
  induction xs generalizing x with
  | nil => simp
  | cons y ys ih =>
    rw [List.foldl_cons]
    rcases List.mem_cons.mp (ih (max x y)) with h | h
    · rw [h]
      rcases max_choice x y with h2 | h2 <;> rw [h2]
      · exact List.mem_cons_self _ _
      · exact List.mem_cons_of_mem _ (List.mem_cons_self _ _)
    · exact List.mem_cons_of_mem _ (List.mem_cons_of_mem _ h)

/-- Python `max(list)` returns a member that dominates every member. -/
lemma pythonMax_spec (l : List ℕ) (m : ℕ) (h : pythonMax l = .ok m) :
    m ∈ l ∧ ∀ k ∈ l, k ≤ m := by
  cases l with
  | nil => cases h
  | cons x xs =>
    simp only [pythonMax, Except.ok.injEq] at h
    subst h
    refine ⟨foldl_max_mem x xs, ?_⟩
    intro k hk
    rcases List.mem_cons.mp hk with rfl | hk2
    · exact le_foldl_max k xs
    · exact mem_le_foldl_max x xs k hk2

/-- Counterexample to C8 as stated: in the unidirectional variant the train
branch constructs the model with the constructor default class count 6; for
a training dataset whose observed maximum syllable count is 7, the class
count equals neither the maximum nor is it `≥` that example's count. -/
theorem C8_counterexample :
    (train_main_uni Unit ["a"] [1, 7] ()).model_state.num_classes = 6 ∧
    pythonMax [1, 7] = .ok 7 ∧
    (train_main_uni Unit ["a"] [1, 7] ()).model_state.num_classes ≠ 7 ∧
    ¬(7 ≤ (train_main_uni Unit ["a"] [1, 7] ()).model_state.num_classes) := by
  exact ⟨rfl, by decide, by decide, by decide⟩

/-- C8 amended: in the bidirectional variant the constructed model's class
count equals the maximum syllable count observed in the training dataset
(it is an observed count and dominates every example's count); in the
unidirectional variant the class count is the constructor default 6,
independent of the dataset. -/
theorem C8_train_class_count (P : Type) (train_words : List String)
    (train_nsyll : List ℕ) (trainedP : P) (ckpt : Checkpoint P)
    (h : train_main_bi P train_words train_nsyll trainedP = .ok ckpt) :
    ckpt.model_state.num_classes ∈ train_nsyll ∧
    (∀ k ∈ train_nsyll, k ≤ ckpt.model_state.num_classes) ∧
    pythonMax train_nsyll = .ok ckpt.model_state.num_classes ∧
    (train_main_uni P train_words train_nsyll trainedP).model_state.num_classes = 6 := by
  cases hmx : pythonMax train_nsyll with
  | error e =>
    rw [train_main_bi, hmx] at h
    cases h
  | ok mx =>
    rw [train_main_bi, hmx] at h
    simp only [Except.ok.injEq] at h
    subst h
    have hspec := pythonMax_spec train_nsyll mx hmx
    exact ⟨hspec.1, hspec.2, rfl, rfl⟩

/-- Witness for C8 (amended): training on syllable counts `[1, 2]` in the
bidirectional variant produces a checkpoint with class count 2 = max, which
is in the dataset and dominates it; the unidirectional variant gets 6. -/
theorem C8_train_class_count_witness :
    train_main_bi Unit ["ab"] [1, 2] () = .ok
      { model_state := { vocab_size := 3, num_classes := 2, params := () },
        char2idx := build_vocab ["ab"] } ∧
    (2 : ℕ) ∈ [1, 2] ∧ (∀ k ∈ [1, 2], k ≤ 2) ∧
    (train_main_uni Unit ["ab"] [1, 2] ()).model_state.num_classes = 6 := by
  have h := C8_train_class_count Unit ["ab"] [1, 2] ()
    { model_state := { vocab_size := 3, num_classes := 2, params := () },
      char2idx := build_vocab ["ab"] } (by decide)
  exact ⟨by decide, h.1, h.2.1, h.2.2.2⟩

/-- Counterexample to C9 as stated: with a checkpoint trained on syllable
counts `[2]` (class count 2) and an inference dataset with syllable counts
`[3]`, the pre-save model produces the predictions `[1]`, but saving and
re-loading through the predict branch aborts with a shape mismatch instead of
reproducing them — the round trip is not bit-identical for this input. -/
theorem C9_counterexample :
    train_main_bi Unit ["ab"] [2] () = .ok
      { model_state := { vocab_size := 3, num_classes := 2, params := () },
        char2idx := build_vocab ["ab"] } ∧
    predict_run Unit (fun _ _ _ => [1, 0])
      ({ vocab_size := 3, num_classes := 2, params := () } : TorchModel Unit)
      (make_test_data (build_vocab ["ab"]) ["a"] [3]) = .ok [1] ∧
    predict_main_bi Unit (fun _ _ _ => [1, 0])
      { model_state := { vocab_size := 3, num_classes := 2, params := () },
        char2idx := build_vocab ["ab"] } ["a"] [3] () = .error () := by
  refine ⟨by decide, by decide, by decide⟩

/-- C9 amended: the checkpoint round-trip reproduces bit-identical
predictions whenever the reloaded model's shape matches the checkpoint's:
in the bidirectional variant, whenever the inference dataset's maximum
syllable count equals the checkpoint's recorded class count (as holds in
particular for any dataset with the training data's maximum), the predict
branch runs exactly the checkpointed model and returns the same predictions
the pre-save model produces on that input; in the unidirectional variant this
holds unconditionally for any checkpoint produced by its train branch. -/
theorem C9_checkpoint_roundtrip (P : Type) (logitsOf : P → List ℕ → ℕ → List ℚ)
    (ckpt : Checkpoint P) (test_words : List String) (test_nsyll : List ℕ)
    (freshP : P)
    (hshape : pythonMax test_nsyll = .ok ckpt.model_state.num_classes)
    (hvocab : ckpt.model_state.vocab_size = ckpt.char2idx.length) :
    predict_main_bi P logitsOf ckpt test_words test_nsyll freshP =
      predict_run P logitsOf ckpt.model_state
        (make_test_data ckpt.char2idx test_words test_nsyll) ∧
    ∀ (train_words : List String) (train_nsyll : List ℕ) (trainedP : P),
      predict_main_uni P logitsOf (train_main_uni P train_words train_nsyll trainedP)
        test_words test_nsyll freshP =
      predict_run P logitsOf
        (train_main_uni P train_words train_nsyll trainedP).model_state
        (make_test_data (train_main_uni P train_words train_nsyll trainedP).char2idx
          test_words test_nsyll) := by
  constructor
  · obtain ⟨⟨vs, nc, pp⟩, c2i⟩ := ckpt
    simp only at hshape hvocab
    subst hvocab
    rw [predict_main_bi, predict_model_bi, predict_reconstruct_bi, hshape]
    simp [load_state_dict]
  · intro train_words train_nsyll trainedP
    rw [predict_main_uni, predict_model_uni, predict_reconstruct_uni]
    simp [load_state_dict, train_main_uni]

/-- Witness for C9 (amended): a checkpoint with class count 2 and an
inference dataset with maximum syllable count 2 — the reloaded predict branch
returns exactly the pre-save model's predictions. -/
theorem C9_checkpoint_roundtrip_witness :
    (pythonMax [1, 2] = .ok
      ({ model_state := { vocab_size := 3, num_classes := 2, params := () },
         char2idx := build_vocab ["ab"] } : Checkpoint Unit).model_state.num_classes ∧
      ({ model_state := { vocab_size := 3, num_classes := 2, params := () },
         char2idx := build_vocab ["ab"] } : Checkpoint Unit).model_state.vocab_size =
        (build_vocab ["ab"]).length) ∧
    predict_main_bi Unit (fun _ _ _ => [1, 0])
      { model_state := { vocab_size := 3, num_classes := 2, params := () },
        char2idx := build_vocab ["ab"] } ["a"] [1, 2] () =
    predict_run Unit (fun _ _ _ => [1, 0])
      ({ vocab_size := 3, num_classes := 2, params := () } : TorchModel Unit)
      (make_test_data (build_vocab ["ab"]) ["a"] [1, 2]) := by
  refine ⟨⟨by decide, by decide⟩, ?_⟩
  exact (C9_checkpoint_roundtrip Unit (fun _ _ _ => [1, 0])
    { model_state := { vocab_size := 3, num_classes := 2, params := () },
      char2idx := build_vocab ["ab"] } ["a"] [1, 2] () (by decide) (by decide)).1

end WordStress
